import Mathlib

/-!
Verification of the retrieval/grounding pipeline of the HandBook_Generation
repository (PDF RAG application).

The Python sources are shallowly embedded here.  Text is modelled as
`List Char` (`Str`), Python `int` as `Int` (arbitrary precision), scores
(Python `float`, used only through comparisons) as `Rat`.  External effects
(the embedding model, the FAISS index search routine, the chat-completion
HTTP transport) are passed in as function parameters, and the embedding
records which of them a code path invokes.

Embedded modules:
- `backend/chunking.py`      : `_split_into_paragraphs`, `_approx_token_count`,
                               `chunk_pages`
- `backend/rag_service.py`   : `_make_subqueries`, `rag_answer`
- `backend/rag_prompt.py`    : `format_retrieved_chunks`, `build_rag_messages`
- `backend/vector_store_faiss.py` : `FaissVectorStore.search`, `reset`
- `backend/handbook_service.py`   : `parse_toc`
-/

/-- Python strings, modelled as lists of characters. -/
abbrev Str := List Char

/-- Python `str.isspace` / the `\s` class for the ASCII range: space, tab,
newline, vertical tab, form feed, carriage return.  (The repository's data is
ASCII; non-ASCII Unicode whitespace is outside the model.) -/
def isPyWs (c : Char) : Bool :=
  c = ' ' || c = '\t' || c = '\n' || c = '\x0b' || c = '\x0c' || c = '\r'

/-- Python `str.lstrip()` (whitespace). -/
def pyLStrip (s : Str) : Str := s.dropWhile isPyWs

/-- Python `str.rstrip()` (whitespace). -/
def pyRStrip (s : Str) : Str := (s.reverse.dropWhile isPyWs).reverse

/-- Python `str.strip()` with no argument: drop leading and trailing
whitespace. -/
def pyStrip (s : Str) : Str := pyRStrip (pyLStrip s)

/-- Python `str.strip(chars)`: drop leading and trailing characters that are
members of `cs`. -/
def pyStripChars (cs : List Char) (s : Str) : Str :=
  ((s.dropWhile (cs.contains ·)).reverse.dropWhile (cs.contains ·)).reverse

/-- Accumulator pass behind `pyWords`: `acc` holds the current word reversed. -/
def wordsGo : Str → List Char → List Str
  | [], acc => if acc = [] then [] else [acc.reverse]
  | c :: rest, acc =>
    if isPyWs c then
      if acc = [] then wordsGo rest [] else acc.reverse :: wordsGo rest []
    else
      wordsGo rest (c :: acc)

/-- Python `str.split()` with no argument: split on runs of whitespace,
discarding empty pieces. -/
def pyWords (s : Str) : List Str := wordsGo s []

/-- Python `sep.join(parts)`. -/
def joinSep (sep : Str) : List Str → Str
  | [] => []
  | [x] => x
  | x :: y :: rest => x ++ sep ++ joinSep sep (y :: rest)

/-- Python slicing `l[:k]` for an arbitrary (possibly negative) `k`. -/
def pyTake (k : Int) (l : List α) : List α :=
  if 0 ≤ k then l.take k.toNat else l.take (l.length - (-k).toNat)

/-- Accumulator pass behind `text.split("\n\n")` (`str.split` with a literal
separator keeps empty pieces; occurrences are consumed left to right,
non-overlapping).  `acc` holds the current piece reversed. -/
def splitNl2Go : Str → List Char → List Str
  | '\n' :: '\n' :: rest, acc => acc.reverse :: splitNl2Go rest []
  | c :: rest, acc => splitNl2Go rest (c :: acc)
  | [], acc => [acc.reverse]

/-- Accumulator pass behind `q.split(",")`. -/
def splitCommaGo : Str → List Char → List Str
  | [], acc => [acc.reverse]
  | c :: rest, acc =>
    if c = ',' then acc.reverse :: splitCommaGo rest [] else splitCommaGo rest (c :: acc)

/-- `_split_into_paragraphs` (backend/chunking.py): split on blank lines
(`"\n\n"`), strip each piece, drop empty pieces. -/
def splitIntoParagraphs (text : Str) : List Str :=
  ((splitNl2Go text []).map pyStrip).filter (· ≠ [])

/-- `_approx_token_count` (backend/chunking.py): `max(1, len(s.split()))`. -/
def approxTokenCount (s : Str) : Int := max 1 ((pyWords s).length : Int)

/-- The `Chunk` dataclass (backend/chunking.py). -/
structure Chunk where
  text : Str
  page : Int
  chunk_index : Nat
  source_path : Str
deriving DecidableEq, Repr

/-- An extracted page as consumed by `chunk_pages`:
`{"page": <int>, "text": <str>}` (a missing or `None` text is the empty
string, per `page_obj.get("text", "") or ""`). -/
structure PageIn where
  page : Int
  text : Str
deriving DecidableEq, Repr

/-- The two-newline separator `"\n\n"` used to join chunk parts. -/
def nl2 : Str := ['\n', '\n']

/-- Chunk text as emitted by `chunk_pages`: `"\n\n".join(current_parts).strip()`. -/
def emitText (parts : List Str) : Str := pyStrip (joinSep nl2 parts)

/-- The word list kept as overlap when a chunk is emitted
(`words[-overlap_tokens:] if len(words) > overlap_tokens else words`,
where `words = chunk_text.split()`); only reached when `overlap_tokens > 0`. -/
def ovWords (ovT : Int) (chunkText : Str) : List Str :=
  let ws := pyWords chunkText
  if (ws.length : Int) > ovT then ws.drop (ws.length - ovT.toNat) else ws

/-- The seeded buffer content `" ".join(overlap_words)`. -/
def overlapSeed (ovT : Int) (chunkText : Str) : Str := joinSep [' '] (ovWords ovT chunkText)

/-- The paragraph loop of `chunk_pages` for one page (backend/chunking.py,
lines 92-140).  Arguments: remaining paragraphs, `current_parts`,
`current_tokens`, `chunk_index`.  On the empty paragraph list the trailing
buffer is flushed. -/
def chunkGo (pageNum : Int) (sourcePath : Str) (maxT ovT : Int) :
    List Str → List Str → Int → Nat → List Chunk
  | [], cur, _, idx =>
    if cur = [] then [] else [⟨emitText cur, pageNum, idx, sourcePath⟩]
  | para :: rest, cur, curTok, idx =>
    let paraTok := approxTokenCount para
    if cur ≠ [] ∧ curTok + paraTok > maxT then
      let ct := emitText cur
      let c : Chunk := ⟨ct, pageNum, idx, sourcePath⟩
      let seeded : List Str × Int :=
        if ovT > 0 then
          let seed := overlapSeed ovT ct
          ([seed], approxTokenCount seed)
        else ([], 0)
      c :: chunkGo pageNum sourcePath maxT ovT rest (seeded.1 ++ [para])
            (seeded.2 + paraTok) (idx + 1)
    else
      chunkGo pageNum sourcePath maxT ovT rest (cur ++ [para]) (curTok + paraTok) idx

/-- The body of `chunk_pages` for one element of `pages`: skip the page when
its text strips to nothing, otherwise run the paragraph loop with an empty
buffer and `chunk_index = 0`. -/
def chunkOnePage (p : PageIn) (sourcePath : Str) (maxT ovT : Int) : List Chunk :=
  if pyStrip p.text = [] then []
  else chunkGo p.page sourcePath maxT ovT (splitIntoParagraphs p.text) [] 0 0

/-- The `ValueError` message raised by `chunk_pages` on invalid parameters. -/
def chunkParamError : Str := "overlap_tokens must be smaller than max_tokens".toList

/-- `chunk_pages` (backend/chunking.py).  Raising `ValueError` is modelled as
`Except.error`; the page loop accumulates every page's chunks into one list. -/
def chunkPages (pages : List PageIn) (sourcePath : Str) (maxT ovT : Int) :
    Except Str (List Chunk) :=
  if ovT ≥ maxT then .error chunkParamError
  else .ok (pages.foldl (fun acc p => acc ++ chunkOnePage p sourcePath maxT ovT) [])

deriving instance DecidableEq for Except

/-- State of the scanner behind `re.split(r"\s+and\s+", q, flags=IGNORECASE)`.
A match of the pattern is a whitespace run, then `and` (case-insensitive),
then a whitespace run, both runs taken greedily; matches are found leftmost
first and are non-overlapping.  The states track how much of a potential
match has been seen. -/
inductive AndSt where
  | norm
  | ws
  | wsA
  | wsAN
  | wsAND
  | matchTail
deriving DecidableEq, Repr

/-- One-character-at-a-time scanner implementing
`re.split(r"\s+and\s+", q, flags=re.IGNORECASE)`.  `pend` holds (reversed)
the characters of a potential separator match not yet resolved; `piece`
holds (reversed) the current output piece.  Every recursive call consumes
exactly one input character, so the recursion is structural; on failure of a
partial match its characters flow back into the piece, which is sound
because a real match must begin with whitespace while the pending
characters after the initial run are `a`/`n`/`d` (no restart point is
skipped). -/
def splitAndGo : Str → AndSt → List Char → List Char → List Str
  | [], st, pend, piece =>
    match st with
    | .norm => [piece.reverse]
    | .matchTail => [piece.reverse]
    | _ => [(pend ++ piece).reverse]
  | c :: rest, st, pend, piece =>
    match st with
    | .norm =>
      if isPyWs c then splitAndGo rest .ws [c] piece
      else splitAndGo rest .norm [] (c :: piece)
    | .ws =>
      if isPyWs c then splitAndGo rest .ws (c :: pend) piece
      else if c.toLower = 'a' then splitAndGo rest .wsA (c :: pend) piece
      else splitAndGo rest .norm [] (c :: pend ++ piece)
    | .wsA =>
      if c.toLower = 'n' then splitAndGo rest .wsAN (c :: pend) piece
      else if isPyWs c then splitAndGo rest .ws [c] (pend ++ piece)
      else splitAndGo rest .norm [] (c :: pend ++ piece)
    | .wsAN =>
      if c.toLower = 'd' then splitAndGo rest .wsAND (c :: pend) piece
      else if isPyWs c then splitAndGo rest .ws [c] (pend ++ piece)
      else splitAndGo rest .norm [] (c :: pend ++ piece)
    | .wsAND =>
      if isPyWs c then piece.reverse :: splitAndGo rest .matchTail [] []
      else splitAndGo rest .norm [] (c :: pend ++ piece)
    | .matchTail =>
      if isPyWs c then splitAndGo rest .matchTail [] []
      else splitAndGo rest .norm [] [c]

/-- `re.split(r"\s+and\s+", q, flags=re.IGNORECASE)`. -/
def splitAndCI (q : Str) : List Str := splitAndGo q .norm [] []

/-- Accumulator pass behind `re.split(r"[;?]+", q)`: split on maximal runs
of `;`/`?`.  `inRun` records whether the previous character was part of a
run (so the run produces a single boundary). -/
def splitPunctGo : Str → Bool → List Char → List Str
  | [], _, piece => [piece.reverse]
  | c :: rest, inRun, piece =>
    if c = ';' ∨ c = '?' then
      if inRun then splitPunctGo rest true piece
      else piece.reverse :: splitPunctGo rest true []
    else splitPunctGo rest false (c :: piece)

/-- `re.split(r"[;?]+", q)`. -/
def splitPunct (q : Str) : List Str := splitPunctGo q false []

/-- `re.sub(r"\s+", " ", s)` in two structural passes: map every whitespace
character to a space, then collapse adjacent spaces. -/
def squashSpaces : Str → Str
  | [] => []
  | [c] => [c]
  | a :: b :: rest =>
    if a = ' ' ∧ b = ' ' then squashSpaces (b :: rest) else a :: squashSpaces (b :: rest)

/-- `re.sub(r"\s+", " ", s)`. -/
def collapseWs (s : Str) : Str := squashSpaces (s.map (fun c => if isPyWs c then ' ' else c))

/-- The character set of `p.strip(" .,:;")` in `_make_subqueries`. -/
def subqStripSet : List Char := [' ', '.', ',', ':', ';']

/-- Python `str.lower()` (ASCII model). -/
def pyLower (s : Str) : Str := s.map Char.toLower

/-- Python substring membership `needle in hay`. -/
def containsSub (needle : Str) : Str → Bool
  | [] => needle.isEmpty
  | s@(_ :: rest) => needle.isPrefixOf s || containsSub needle rest

/-- The post-split cleanup `[p.strip(" .,:;") for p in parts if p.strip()]`. -/
def cleanParts (parts : List Str) : List Str :=
  (parts.filter (fun p => pyStrip p ≠ [])).map (pyStripChars subqStripSet)

/-- The final deduplication loop of `_make_subqueries`: whitespace-normalize
each candidate, drop empties, keep the first occurrence of each
case-insensitive key.  The fold state is `(out, seen)`. -/
def dedupSubs (subs : List Str) : List Str :=
  (subs.foldl
    (fun (st : List Str × List Str) s =>
      let s2 := pyStrip (collapseWs s)
      if s2 ≠ [] ∧ ¬ st.2.contains (pyLower s2) then (st.1 ++ [s2], st.2 ++ [pyLower s2])
      else st)
    ([], [])).1

/-- `_make_subqueries` (backend/rag_service.py). -/
def makeSubqueries (question : Str) : List Str :=
  let q := pyStrip question
  let subs := [q]
  let subs :=
    if containsSub " and ".toList (pyLower q) then subs ++ cleanParts (splitAndCI q)
    else subs
  let subs :=
    if q.contains ';' || q.contains '?' then subs ++ cleanParts (splitPunct q)
    else subs
  let subs :=
    if (q.length : Int) > 120 ∧ q.contains ',' then subs ++ cleanParts (splitCommaGo q [])
    else subs
  pyTake 4 (dedupSubs subs)

/-- A retrieval result: a chunk-metadata dict (`text`, `page`, `chunk_index`,
`source_path`, as written by `FaissVectorStore.add_chunks`) together with the
similarity `score` attached by `search`.  Scores (Python floats used only in
comparisons) are modelled as rationals. -/
structure RRes where
  text : Str
  page : Int
  chunk_index : Int
  source_path : Str
  score : Rat
deriving DecidableEq, Repr

/-- The stable chunk identity used by `rag_answer`:
`(r.get("source_path"), r.get("page"), r.get("chunk_index"))`. -/
def rkey (r : RRes) : Str × Int × Int := (r.source_path, r.page, r.chunk_index)

/-- One step of the dedup dict of `rag_answer`: if the key is absent the
entry is appended (dict insertion order), otherwise the stored entry is
replaced in place when the new score is strictly higher. -/
def updEntry (r : RRes) : List RRes → List RRes
  | [] => [r]
  | x :: xs =>
    if rkey x = rkey r then (if r.score > x.score then r else x) :: xs
    else x :: updEntry r xs

/-- The dedup loop of `rag_answer` (backend/rag_service.py, lines 66-74);
the resulting list order is the dict's insertion order, i.e. first-seen key
order, which is what `deduped.values()` iterates. -/
def dedupPool (pool : List RRes) : List RRes := pool.foldl (fun acc r => updEntry r acc) []

/-- Descending-score comparison used to model
`sorted(..., key=lambda x: float(x.get("score", 0.0)), reverse=True)`.
Python sorting is stable, and `List.insertionSort scoreGe` is exactly the
stable descending sort: an element is inserted before the first element of
not-larger score. -/
def scoreGe (a b : RRes) : Prop := b.score ≤ a.score

instance : DecidableRel scoreGe := fun a b => inferInstanceAs (Decidable (b.score ≤ a.score))

instance : IsTotal RRes scoreGe := ⟨fun a b => le_total b.score a.score⟩

instance : IsTrans RRes scoreGe := ⟨fun _ _ _ h h2 => le_trans h2 h⟩

/-- The final selection of `rag_answer`: the deduplicated pool sorted by
score descending (stably) and cut to `retrieved[:k]`. -/
def topKSelect (k : Int) (pool : List RRes) : List RRes :=
  pyTake k (List.insertionSort scoreGe (dedupPool pool))

/-- `k_per = max(4, k)`. -/
def kPerOf (k : Int) : Int := max 4 k

/-- The pooled multi-query results of `rag_answer`: one `store.search`
call per sub-query, results concatenated in order.  The store is abstracted
as the function `search`. -/
def mergedPool (question : Str) (search : Str → Int → List RRes) (k : Int) : List RRes :=
  ((makeSubqueries question).map (fun sq => search sq (kPerOf k))).flatten

/-- The apostrophe character (spelled via its code point). -/
def apos : Char := Char.ofNat 39

/-- The double-quote character (spelled via its code point). -/
def dquote : Char := Char.ofNat 34

/-- The fixed refusal string returned by `rag_answer` when retrieval is
empty. -/
def refusalText : Str :=
  "I don".toList ++ [apos] ++ "t have enough information in the uploaded PDFs.".toList

/-- `Path(source_path).name`: the final path component (POSIX separators). -/
def pathName (s : Str) : Str := (s.reverse.takeWhile (· ≠ '/')).reverse

/-- Decimal rendering of a Python `int` for the f-string pieces `p.{page}`
and `c{chunk_index}`. -/
def intToStr (n : Int) : Str :=
  if n < 0 then '-' :: Nat.toDigits 10 (-n).toNat else Nat.toDigits 10 n.toNat

/-- One line of `format_retrieved_chunks`:
`[{source} | p.{page} | c{chunk_index}] {text}` with the text stripped,
newlines flattened to spaces and cut to `max_chars_per_chunk`. -/
def evidenceLine (maxChars : Int) (r : RRes) : Str :=
  let source := pathName r.source_path
  let text := pyTake maxChars ((pyStrip r.text).map (fun c => if c = '\n' then ' ' else c))
  ['['] ++ source ++ " | p.".toList ++ intToStr r.page ++ " | c".toList ++
    intToStr r.chunk_index ++ "] ".toList ++ text

/-- `format_retrieved_chunks` (backend/rag_prompt.py). -/
def formatRetrievedChunks (maxChars : Int) (results : List RRes) : Str :=
  joinSep ['\n'] (results.map (evidenceLine maxChars))

/-- A chat message (`{"role": ..., "content": ...}`). -/
structure Msg where
  role : Str
  content : Str
deriving DecidableEq, Repr

/-- The system message content of `build_rag_messages`. -/
def ragSystemContent : Str :=
  "You are a strict RAG assistant. Use ONLY the provided PDF context. ".toList ++
  "If the answer is not explicitly supported by the context, say: ".toList ++
  [dquote] ++ refusalText ++ [dquote] ++ [' '] ++
  "Every factual claim must include an inline citation using the exact ".toList ++
  "bracket label from the context, e.g. [file.pdf | p.12 | c3]. ".toList ++
  "Do not invent sources, pages, or citations.".toList

/-- `build_rag_messages` (backend/rag_prompt.py). -/
def buildRagMessages (userQuestion : Str) (retrievedContext : Str) : List Msg :=
  [⟨"system".toList, ragSystemContent⟩,
   ⟨"user".toList,
     "PDF CONTEXT:\n".toList ++ retrievedContext ++ "\n\nQUESTION:\n".toList ++
       userQuestion ++ "\n\nAnswer clearly and include citations for claims.".toList⟩]

/-- The outcome of `rag_answer`, extended with an execution trace: whether
the `chat_completion` transport was invoked and which `store.search` calls
were made (query and `k`), in order. -/
structure RagOut where
  answer : Str
  evidence : List RRes
  context_text : Str
  llm_called : Bool
  search_calls : List (Str × Int)
deriving DecidableEq, Repr

/-- `rag_answer` (backend/rag_service.py).  The vector store's `search`
method and the `chat_completion` transport are passed as functions; `k`
defaults to 6 at the call sites. -/
def ragAnswer (question : Str) (search : Str → Int → List RRes) (chat : List Msg → Str)
    (k : Int) : RagOut :=
  let subqueries := makeSubqueries question
  let kPer := kPerOf k
  let merged := (subqueries.map (fun sq => search sq kPer)).flatten
  let retrieved := topKSelect k merged
  if retrieved = [] then
    ⟨refusalText, [], [], false, subqueries.map (fun sq => (sq, kPer))⟩
  else
    let contextText := formatRetrievedChunks 1500 retrieved
    let messages := buildRagMessages question contextText
    ⟨chat messages, retrieved, contextText, true, subqueries.map (fun sq => (sq, kPer))⟩

/-- Chunk metadata as persisted by the local store (`chunks.json`). -/
structure CMeta where
  text : Str
  page : Int
  chunk_index : Int
  source_path : Str
deriving DecidableEq, Repr

/-- An embedding vector (model-dependent dimension). -/
def FVec := List Rat

/-- The FAISS index object, abstracted to its top-k inner-product search:
given a query vector and `k` it yields `(score, position)` pairs
(`scores[0]` zipped with `idxs[0]`; FAISS pads missing results with
position `-1`). -/
structure FaissIndexM where
  searchFn : FVec → Int → List (Rat × Int)

/-- The in-memory state of `FaissVectorStore`: the optional FAISS index and
the positionally aligned chunk-metadata list. -/
structure FaissStore where
  index : Option FaissIndexM
  chunks : List CMeta

/-- The state after `__init__` with no persisted files, i.e. a never
populated store (`index = None`, `chunks = []`). -/
def emptyFaissStore : FaissStore := ⟨none, []⟩

/-- `FaissVectorStore.reset`: discard index and metadata (the unlinking of
the two files is I/O outside the state model). -/
def faissReset (_s : FaissStore) : FaissStore := emptyFaissStore

/-- Attach a score to stored chunk metadata (`item = dict(self.chunks[idx]);
item["score"] = float(score)`). -/
def mkRRes (c : CMeta) (score : Rat) : RRes :=
  ⟨c.text, c.page, c.chunk_index, c.source_path, score⟩

/-- `FaissVectorStore.search` (backend/vector_store_faiss.py).  The
embedding model is the parameter `embed`; the returned `Nat` counts how
many `embed_texts` calls were made.  Indexing `self.chunks[idx]` out of
range would raise, modelled as `Except.error`. -/
def faissSearch (st : FaissStore) (embed : Str → FVec) (query : Str) (k : Int) :
    Except Str (List RRes × Nat) :=
  match st.index with
  | none => .ok ([], 0)
  | some idxm =>
    if st.chunks = [] then .ok ([], 0)
    else
      let qv := embed query
      let pairs := idxm.searchFn qv k
      (pairs.foldlM
        (fun (acc : List RRes) (p : Rat × Int) =>
          if p.2 < 0 then Except.ok acc
          else
            match st.chunks.get? p.2.toNat with
            | some c => Except.ok (acc ++ [mkRRes c p.1])
            | none => Except.error "list index out of range".toList)
        []).map (fun rs => (rs, 1))

/-- `len(ln) >= 2 and ln[0].isdigit() and "." in ln[:4]`
(backend/handbook_service.py). -/
def isSectionLine (ln : Str) : Bool :=
  decide (2 ≤ ln.length) &&
  (match ln with
   | [] => false
   | c :: _ => c.isDigit) &&
  (ln.take 4).contains '.'

/-- The synthetic fallback section of `parse_toc`. -/
def introSection : Str := "1. Introduction".toList

/-- Accumulator pass behind Python `str.splitlines()` (the ASCII line
boundaries `\n`, `\r`, `\r\n`, `\v`, `\f`, `\x1c`, `\x1d`, `\x1e`; no
trailing empty line). -/
def pySplitlinesGo : Str → List Char → List Str
  | [], acc => if acc = [] then [] else [acc.reverse]
  | '\r' :: '\n' :: rest, acc => acc.reverse :: pySplitlinesGo rest []
  | c :: rest, acc =>
    if c = '\n' ∨ c = '\r' ∨ c = '\x0b' ∨ c = '\x0c' ∨ c = '\x1c' ∨ c = '\x1d' ∨ c = '\x1e'
    then acc.reverse :: pySplitlinesGo rest []
    else pySplitlinesGo rest (c :: acc)

/-- `parse_toc` (backend/handbook_service.py). -/
def parseToc (tocText : Str) : List Str :=
  let lines := ((pySplitlinesGo tocText []).map pyStrip).filter (· ≠ [])
  let sectionTitles :=
    lines.foldl (fun acc ln => if isSectionLine ln then acc ++ [ln] else acc) []
  if sectionTitles = [] then [introSection] else sectionTitles

/-! ### Overlap invariant of the chunker -/

/-- The per-page overlap relation between two consecutive chunks: with
`m = min overlap_tokens (word-count of the first chunk)`, the first `m`
words of the second chunk are exactly the last `m` words of the first, and
the second chunk has at least `m` words. -/
def overlapProp (t : Int) (c₁ c₂ : Chunk) : Prop :=
  (pyWords c₂.text).take (min t.toNat (pyWords c₁.text).length) =
    (pyWords c₁.text).drop
      ((pyWords c₁.text).length - min t.toNat (pyWords c₁.text).length) ∧
  min t.toNat (pyWords c₁.text).length ≤ (pyWords c₂.text).length

/-! ### Lemmas about the word model -/

theorem wordsGo_ws_nil (sep : Str) (hsep : ∀ c ∈ sep, isPyWs c = true) (b : Str) :
    wordsGo (sep ++ b) [] = wordsGo b [] := by
  induction sep with
  | nil => rfl
  | cons c cs ih =>
    have hc : isPyWs c = true := hsep c (List.mem_cons_self c cs)
    have := ih fun d hd => hsep d (List.mem_cons_of_mem c hd)
    simpa [wordsGo, hc] using this

theorem wordsGo_append_ws (a sep b : Str) (hne : sep ≠ [])
    (hsep : ∀ c ∈ sep, isPyWs c = true) (acc : List Char) :
    wordsGo (a ++ (sep ++ b)) acc = wordsGo a acc ++ wordsGo b [] := by
  induction a generalizing acc with
  | nil =>
    obtain ⟨c, cs, rfl⟩ : ∃ c cs, sep = c :: cs := by
      cases sep with
      | nil => exact absurd rfl hne
      | cons c cs => exact ⟨c, cs, rfl⟩
    have hc : isPyWs c = true := hsep c (List.mem_cons_self c cs)
    have hcs : wordsGo (cs ++ b) [] = wordsGo b [] :=
      wordsGo_ws_nil cs (fun d hd => hsep d (List.mem_cons_of_mem c hd)) b
    by_cases hacc : acc = [] <;>
      simp [wordsGo, hc, hacc, hcs]
  | cons c a' ih =>
    cases hc : isPyWs c with
    | true =>
      by_cases hacc : acc = [] <;>
        simp [wordsGo, hc, hacc, ih]
    | false =>
      simp [wordsGo, hc, ih]

theorem pyWords_append_ws_left (sep b : Str) (hsep : ∀ c ∈ sep, isPyWs c = true) :
    pyWords (sep ++ b) = pyWords b :=
  wordsGo_ws_nil sep hsep b

theorem pyWords_append_ws_right (a w : Str) (hw : ∀ c ∈ w, isPyWs c = true) :
    pyWords (a ++ w) = pyWords a := by
  cases hwe : w with
  | nil => simp [pyWords]
  | cons c cs =>
    have h := wordsGo_append_ws a (c :: cs) [] (by simp) (hwe ▸ hw) []
    simpa [pyWords, wordsGo] using h

theorem pyWords_lstrip (s : Str) : pyWords (pyLStrip s) = pyWords s := by
  conv_rhs => rw [← List.takeWhile_append_dropWhile (p := isPyWs) (l := s)]
  rw [pyLStrip]
  exact (pyWords_append_ws_left _ _ (fun c hc => List.mem_takeWhile_imp hc)).symm

theorem pyWords_rstrip (s : Str) : pyWords (pyRStrip s) = pyWords s := by
  conv_rhs => rw [show s = pyRStrip s ++ (s.reverse.takeWhile isPyWs).reverse by
    rw [pyRStrip, ← List.reverse_append, List.takeWhile_append_dropWhile, List.reverse_reverse]]
  exact (pyWords_append_ws_right _ _ (fun c hc => by
    rw [List.mem_reverse] at hc
    exact List.mem_takeWhile_imp hc)).symm

theorem pyWords_strip (s : Str) : pyWords (pyStrip s) = pyWords s := by
  rw [pyStrip, pyWords_rstrip, pyWords_lstrip]

theorem pyWords_joinSep (sep : Str) (hne : sep ≠ []) (hsep : ∀ c ∈ sep, isPyWs c = true) :
    ∀ parts : List Str, pyWords (joinSep sep parts) = (parts.map pyWords).flatten
  | [] => rfl
  | [x] => by simp [joinSep]
  | x :: y :: rest => by
    have ih := pyWords_joinSep sep hne hsep (y :: rest)
    have hx : pyWords (x ++ (sep ++ joinSep sep (y :: rest))) =
        pyWords x ++ pyWords (joinSep sep (y :: rest)) :=
      wordsGo_append_ws x sep _ hne hsep []
    simp only [joinSep, List.map_cons, List.flatten_cons]
    rw [List.append_assoc, hx, ih]
    simp [List.flatten_cons]

theorem wordsGo_clean (s : Str) :
    ∀ acc, (∀ c ∈ acc, isPyWs c = false) →
      ∀ w ∈ wordsGo s acc, w ≠ [] ∧ ∀ c ∈ w, isPyWs c = false := by
  induction s with
  | nil =>
    intro acc hacc w hw
    simp only [wordsGo] at hw
    by_cases h : acc = []
    · simp [h] at hw
    · simp only [h, if_false, List.mem_singleton] at hw
      subst hw
      constructor
      · simpa using h
      · intro c hc
        exact hacc c (by simpa using hc)
  | cons c rest ih =>
    intro acc hacc w hw
    by_cases hc : isPyWs c = true
    · simp only [wordsGo, hc, if_true] at hw
      by_cases h : acc = []
      · simp only [h, if_true] at hw
        exact ih [] (by simp) w hw
      · simp only [h, if_false] at hw
        rcases List.mem_cons.mp hw with rfl | hw
        · constructor
          · simpa using h
          · intro d hd
            exact hacc d (by simpa using hd)
        · exact ih [] (by simp) w hw
    · have hc' : isPyWs c = false := by
        cases h : isPyWs c
        · rfl
        · exact absurd h hc
      simp only [wordsGo, hc', Bool.false_eq_true, if_false] at hw
      refine ih (c :: acc) ?_ w hw
      intro d hd
      rcases List.mem_cons.mp hd with rfl | hd
      · exact hc'
      · exact hacc d hd

theorem pyWords_clean (s : Str) : ∀ w ∈ pyWords s, w ≠ [] ∧ ∀ c ∈ w, isPyWs c = false :=
  wordsGo_clean s [] (by simp)

theorem wordsGo_single (w : Str) (hne : w ≠ []) (hcl : ∀ c ∈ w, isPyWs c = false) :
    ∀ acc, wordsGo w acc = [acc.reverse ++ w] := by
  induction w with
  | nil => exact absurd rfl hne
  | cons c rest ih =>
    intro acc
    have hc : isPyWs c = false := hcl c (List.mem_cons_self c rest)
    by_cases hr : rest = []
    · subst hr
      simp [wordsGo, hc]
    · have := ih hr (fun d hd => hcl d (List.mem_cons_of_mem c hd)) (c :: acc)
      simp only [wordsGo, hc, Bool.false_eq_true, if_false, this, List.reverse_cons]
      simp

theorem pyWords_single (w : Str) (hne : w ≠ []) (hcl : ∀ c ∈ w, isPyWs c = false) :
    pyWords w = [w] := by
  have := wordsGo_single w hne hcl []
  simpa [pyWords] using this

theorem pyWords_joinSpace (parts : List Str)
    (h : ∀ w ∈ parts, w ≠ [] ∧ ∀ c ∈ w, isPyWs c = false) :
    pyWords (joinSep [' '] parts) = parts := by
  rw [pyWords_joinSep [' '] (by simp) (by decide) parts]
  induction parts with
  | nil => rfl
  | cons w rest ih =>
    have hw := h w (List.mem_cons_self w rest)
    rw [List.map_cons, List.flatten_cons, pyWords_single w hw.1 hw.2,
      ih (fun x hx => h x (List.mem_cons_of_mem w hx))]
    rfl

theorem pyWords_emitText (parts : List Str) :
    pyWords (emitText parts) = (parts.map pyWords).flatten := by
  rw [emitText, pyWords_strip]
  exact pyWords_joinSep nl2 (by decide) (by decide) parts

theorem ovWords_eq (t : Int) (ht : 0 < t) (s : Str) :
    ovWords t s =
      (pyWords s).drop ((pyWords s).length - min t.toNat (pyWords s).length) := by
  unfold ovWords
  by_cases h : ((pyWords s).length : Int) > t
  · have h1 : t.toNat ≤ (pyWords s).length := by omega
    have h2 : min t.toNat (pyWords s).length = t.toNat := min_eq_left h1
    simp [h, h2]
  · have h1 : (pyWords s).length ≤ t.toNat := by omega
    have h2 : min t.toNat (pyWords s).length = (pyWords s).length := min_eq_right h1
    simp [h, h2]

theorem ovWords_length (t : Int) (ht : 0 < t) (s : Str) :
    (ovWords t s).length = min t.toNat (pyWords s).length := by
  rw [ovWords_eq t ht s, List.length_drop]
  omega

theorem ovWords_mem (t : Int) (s : Str) : ∀ w ∈ ovWords t s, w ∈ pyWords s := by
  intro w hw
  simp only [ovWords] at hw
  split at hw
  · exact List.mem_of_mem_drop hw
  · exact hw

theorem pyWords_overlapSeed (t : Int) (s : Str) :
    pyWords (overlapSeed t s) = ovWords t s := by
  rw [overlapSeed]
  exact pyWords_joinSpace _ (fun w hw => pyWords_clean s w (ovWords_mem t s w hw))

theorem chunkGo_chain (pageNum : Int) (sp : Str) (maxT t : Int) (ht : 0 < t) :
    ∀ (paras cur : List Str) (curTok : Int) (idx : Nat),
      List.Chain' (overlapProp t) (chunkGo pageNum sp maxT t paras cur curTok idx) ∧
      ∀ h tl, chunkGo pageNum sp maxT t paras cur curTok idx = h :: tl →
        ∃ r, pyWords h.text = (cur.map pyWords).flatten ++ r := by
  intro paras
  induction paras with
  | nil =>
    intro cur curTok idx
    by_cases hc : cur = []
    · subst hc
      constructor
      · simp [chunkGo]
      · intro h tl heq
        simp [chunkGo] at heq
    · constructor
      · simp only [chunkGo, if_neg hc]
        exact List.chain'_singleton _
      · intro h tl heq
        simp only [chunkGo, if_neg hc] at heq
        cases heq
        exact ⟨[], by simp [pyWords_emitText]⟩
  | cons para rest ih =>
    intro cur curTok idx
    by_cases hcond : cur ≠ [] ∧ curTok + approxTokenCount para > maxT
    · have hout : chunkGo pageNum sp maxT t (para :: rest) cur curTok idx =
          (⟨emitText cur, pageNum, idx, sp⟩ : Chunk) ::
            chunkGo pageNum sp maxT t rest ([overlapSeed t (emitText cur)] ++ [para])
              (approxTokenCount (overlapSeed t (emitText cur)) + approxTokenCount para)
              (idx + 1) := by
        simp only [chunkGo, if_pos hcond, if_pos ht]
      constructor
      · rw [hout]
        refine List.chain'_cons'.mpr ⟨?_, (ih _ _ _).1⟩
        intro y hy
        set out2 := chunkGo pageNum sp maxT t rest ([overlapSeed t (emitText cur)] ++ [para])
          (approxTokenCount (overlapSeed t (emitText cur)) + approxTokenCount para)
          (idx + 1) with hout2
        obtain ⟨tl, htl⟩ : ∃ tl, out2 = y :: tl := by
          cases h2 : out2 with
          | nil => rw [h2] at hy; simp at hy
          | cons a b =>
            rw [h2] at hy
            simp only [List.head?_cons, Option.mem_some_iff] at hy
            exact ⟨b, by rw [hy]⟩
        obtain ⟨r, hr⟩ := (ih _ _ _).2 y tl htl
        have hr' : pyWords y.text =
            ovWords t (emitText cur) ++ (pyWords para ++ r) := by
          rw [hr]
          simp [pyWords_overlapSeed]
        constructor
        · show (pyWords y.text).take _ = _
          rw [hr', ← ovWords_eq t ht (emitText cur)]
          exact List.take_left' (ovWords_length t ht (emitText cur))
        · show min t.toNat (pyWords (emitText cur)).length ≤ _
          rw [hr', List.length_append, ← ovWords_length t ht (emitText cur)]
          exact Nat.le_add_right _ _
      · intro h tl heq
        rw [hout] at heq
        cases heq
        exact ⟨[], by simp [pyWords_emitText]⟩
    · have hout : chunkGo pageNum sp maxT t (para :: rest) cur curTok idx =
          chunkGo pageNum sp maxT t rest (cur ++ [para])
            (curTok + approxTokenCount para) idx := by
        simp only [chunkGo, if_neg hcond]
      constructor
      · rw [hout]
        exact (ih _ _ _).1
      · intro h tl heq
        rw [hout] at heq
        obtain ⟨r, hr⟩ := (ih _ _ _).2 h tl heq
        refine ⟨pyWords para ++ r, ?_⟩
        rw [hr]
        simp [List.flatten_append]

theorem chunkOnePage_chain (p : PageIn) (sp : Str) (maxT t : Int) (ht : 0 < t) :
    List.Chain' (overlapProp t) (chunkOnePage p sp maxT t) := by
  unfold chunkOnePage
  split
  · exact List.chain'_nil
  · exact (chunkGo_chain p.page sp maxT t ht _ _ _ _).1

/-! ### Ordering and index structure of the chunker -/

theorem chunkGo_indices (pageNum : Int) (sp : Str) (maxT ovT : Int) :
    ∀ (paras cur : List Str) (curTok : Int) (idx : Nat),
      (chunkGo pageNum sp maxT ovT paras cur curTok idx).map (·.chunk_index) =
        List.range' idx (chunkGo pageNum sp maxT ovT paras cur curTok idx).length := by
  intro paras
  induction paras with
  | nil =>
    intro cur curTok idx
    by_cases hc : cur = [] <;> simp [chunkGo, hc, List.range'_one]
  | cons para rest ih =>
    intro cur curTok idx
    by_cases hcond : cur ≠ [] ∧ curTok + approxTokenCount para > maxT
    · simp only [chunkGo, if_pos hcond, List.map_cons, List.length_cons]
      rw [ih]
      exact (List.range'_succ idx _ 1).symm
    · simp only [chunkGo, if_neg hcond]
      exact ih _ _ _

theorem chunkGo_page (pageNum : Int) (sp : Str) (maxT ovT : Int) :
    ∀ (paras cur : List Str) (curTok : Int) (idx : Nat) (c : Chunk),
      c ∈ chunkGo pageNum sp maxT ovT paras cur curTok idx → c.page = pageNum := by
  intro paras
  induction paras with
  | nil =>
    intro cur curTok idx c hc
    by_cases h : cur = []
    · simp [chunkGo, h] at hc
    · simp only [chunkGo, if_neg h, List.mem_singleton] at hc
      rw [hc]
  | cons para rest ih =>
    intro cur curTok idx c hc
    by_cases hcond : cur ≠ [] ∧ curTok + approxTokenCount para > maxT
    · simp only [chunkGo, if_pos hcond, List.mem_cons] at hc
      rcases hc with rfl | hc
      · rfl
      · exact ih _ _ _ c hc
    · simp only [chunkGo, if_neg hcond] at hc
      exact ih _ _ _ c hc

theorem chunkOnePage_indices (p : PageIn) (sp : Str) (maxT ovT : Int) :
    (chunkOnePage p sp maxT ovT).map (·.chunk_index) =
      List.range (chunkOnePage p sp maxT ovT).length := by
  unfold chunkOnePage
  split
  · simp
  · rw [List.range_eq_range']
    exact chunkGo_indices p.page sp maxT ovT _ _ _ _

theorem chunkOnePage_page (p : PageIn) (sp : Str) (maxT ovT : Int) :
    ∀ c ∈ chunkOnePage p sp maxT ovT, c.page = p.page := by
  intro c hc
  unfold chunkOnePage at hc
  split at hc
  · simp at hc
  · exact chunkGo_page p.page sp maxT ovT _ _ _ _ c hc

theorem foldl_append_flatten (f : α → List β) :
    ∀ (l : List α) (init : List β),
      l.foldl (fun acc x => acc ++ f x) init = init ++ (l.map f).flatten := by
  intro l
  induction l with
  | nil => intro init; simp
  | cons x xs ih =>
    intro init
    simp only [List.foldl_cons, List.map_cons, List.flatten_cons]
    rw [ih, List.append_assoc]

theorem chunkPages_ok (pages : List PageIn) (sp : Str) (maxT ovT : Int)
    (h : ¬ ovT ≥ maxT) :
    chunkPages pages sp maxT ovT =
      .ok ((pages.map (fun p => chunkOnePage p sp maxT ovT)).flatten) := by
  rw [chunkPages, if_neg h, foldl_append_flatten]
  rfl

theorem pairwise_of_all {R : α → α → Prop} :
    ∀ l : List α, (∀ a ∈ l, ∀ b ∈ l, R a b) → l.Pairwise R
  | [], _ => .nil
  | x :: xs, h =>
    .cons (fun b hb => h x (List.mem_cons_self x xs) b (List.mem_cons_of_mem x hb))
      (pairwise_of_all xs fun a ha b hb =>
        h a (List.mem_cons_of_mem x ha) b (List.mem_cons_of_mem x hb))

theorem flatten_pages_pairwise (pages : List PageIn) (sp : Str) (maxT ovT : Int)
    (hs : pages.Pairwise (fun a b => a.page < b.page)) :
    ((pages.map (fun p => chunkOnePage p sp maxT ovT)).flatten).Pairwise
      (fun c d => c.page ≤ d.page) := by
  induction pages with
  | nil => simp
  | cons p ps ih =>
    simp only [List.map_cons, List.flatten_cons]
    rw [List.pairwise_append]
    refine ⟨?_, ih (List.Pairwise.of_cons hs), ?_⟩
    · refine pairwise_of_all _ fun a ha b hb => ?_
      rw [chunkOnePage_page p sp maxT ovT a ha, chunkOnePage_page p sp maxT ovT b hb]
    · intro a ha b hb
      obtain ⟨lq, hlq, hbq⟩ := List.mem_flatten.mp hb
      obtain ⟨q, hq, rfl⟩ := List.mem_map.mp hlq
      rw [chunkOnePage_page p sp maxT ovT a ha, chunkOnePage_page q sp maxT ovT b hbq]
      exact le_of_lt ((List.pairwise_cons.mp hs).1 q hq)

/-! ### Concrete evaluation checks of the embedding -/

example : splitIntoParagraphs "a b\n\nc d".toList = ["a b".toList, "c d".toList] := by decide

example :
    chunkPages [⟨1, "a b\n\nc d".toList⟩] "s".toList 2 1 =
      .ok [⟨"a b".toList, 1, 0, "s".toList⟩, ⟨"b\n\nc d".toList, 1, 1, "s".toList⟩] := by
  decide

example :
    makeSubqueries "What is X and what is Y?".toList =
      ["What is X and what is Y?".toList, "What is X".toList, "what is Y?".toList,
       "What is X and what is Y".toList] := by
  decide

example : makeSubqueries "  hello  ".toList = ["hello".toList] := by decide

example : makeSubqueries "".toList = [] := by decide

example : makeSubqueries "a; b".toList = ["a; b".toList, "a".toList, "b".toList] := by decide

example :
    parseToc "Intro\n1. One\n  2. Two \nx\n12. Twelve\n123. No\n".toList =
      ["1. One".toList, "2. Two".toList, "12. Twelve".toList, "123. No".toList] := by decide

example : parseToc "nothing here".toList = ["1. Introduction".toList] := by decide

/-! ### Claim theorems: chunking -/

/-- Claim C8: for every pages input and every parameter pair with
`overlap_tokens >= max_tokens`, `chunk_pages` fails with the configuration
`ValueError` before processing any page, producing no chunk. -/
theorem chunk_pages_param_validation (pages : List PageIn) (sp : Str) (maxT ovT : Int)
    (h : ovT ≥ maxT) : chunkPages pages sp maxT ovT = .error chunkParamError := by
  rw [chunkPages, if_pos h]

/-- Witness for `chunk_pages_param_validation` at a concrete input. -/
theorem chunk_pages_param_validation_witness :
    chunkPages [⟨1, "a b".toList⟩] "doc.pdf".toList 5 5 = .error chunkParamError :=
  chunk_pages_param_validation [⟨1, "a b".toList⟩] "doc.pdf".toList 5 5 (by decide)

/-- Claim C9: `max_tokens` is a soft target even when no single paragraph is
oversized.  Concretely, with `max_tokens = 5`, `overlap_tokens = 4` and one
page of two 5-word paragraphs, every paragraph is within the limit, yet the
second emitted chunk (overlap seed plus the triggering paragraph, appended
without re-checking the limit) has 9 words, exceeding `max_tokens`. -/
theorem chunk_pages_soft_cap :
    (∀ para ∈ splitIntoParagraphs "a b c d e\n\nf g h i j".toList,
        approxTokenCount para ≤ 5) ∧
    chunkPages [⟨1, "a b c d e\n\nf g h i j".toList⟩] "s".toList 5 4 =
      .ok [⟨"a b c d e".toList, 1, 0, "s".toList⟩,
           ⟨"b c d e\n\nf g h i j".toList, 1, 1, "s".toList⟩] ∧
    approxTokenCount "b c d e\n\nf g h i j".toList > 5 := by
  decide

/-- Claim C4: with `0 < overlap_tokens = t < max_tokens`, whenever one page
produces consecutive chunks `j` and `j+1`, the leading
`min t (word-count of chunk j)` words of chunk `j+1` are exactly the trailing
words of chunk `j` (`overlapProp`); the chunk list of the whole run is the
per-page concatenation. -/
theorem chunk_overlap_invariant (pages : List PageIn) (sp : Str) (maxT t : Int)
    (out : List Chunk) (p : PageIn) (j : Nat)
    (ht : 0 < t) (hlt : t < maxT)
    (hok : chunkPages pages sp maxT t = .ok out) (_hp : p ∈ pages)
    (hj : j < (chunkOnePage p sp maxT t).length)
    (hj1 : j + 1 < (chunkOnePage p sp maxT t).length) :
    out = (pages.map (fun q => chunkOnePage q sp maxT t)).flatten ∧
    overlapProp t ((chunkOnePage p sp maxT t).get ⟨j, hj⟩)
      ((chunkOnePage p sp maxT t).get ⟨j + 1, hj1⟩) := by
  constructor
  · have hne : ¬ t ≥ maxT := not_le.mpr hlt
    rw [chunkPages_ok pages sp maxT t hne] at hok
    exact (Except.ok.injEq _ _ ▸ hok).symm ▸ rfl
  · have hchain := chunkOnePage_chain p sp maxT t ht
    have := List.chain'_iff_get.mp hchain j (by omega)
    exact this

/-- Witness for `chunk_overlap_invariant`: one page, two 2-word paragraphs,
`max_tokens = 2`, `overlap_tokens = 1`. -/
theorem chunk_overlap_invariant_witness :
    (⟨1, "a b\n\nc d".toList⟩ : PageIn) ∈ [(⟨1, "a b\n\nc d".toList⟩ : PageIn)] ∧
    ([⟨"a b".toList, 1, 0, "s".toList⟩, ⟨"b\n\nc d".toList, 1, 1, "s".toList⟩] :
        List Chunk) =
      (([(⟨1, "a b\n\nc d".toList⟩ : PageIn)]).map
          (fun q => chunkOnePage q "s".toList 2 1)).flatten ∧
    overlapProp 1
      ((chunkOnePage ⟨1, "a b\n\nc d".toList⟩ "s".toList 2 1).get ⟨0, by decide⟩)
      ((chunkOnePage ⟨1, "a b\n\nc d".toList⟩ "s".toList 2 1).get ⟨1, by decide⟩) := by
  refine ⟨by decide, ?_, ?_⟩
  · exact (chunk_overlap_invariant [⟨1, "a b\n\nc d".toList⟩] "s".toList 2 1
      [⟨"a b".toList, 1, 0, "s".toList⟩, ⟨"b\n\nc d".toList, 1, 1, "s".toList⟩]
      ⟨1, "a b\n\nc d".toList⟩ 0 (by decide) (by decide) (by decide)
      (List.mem_singleton.mpr rfl) (by decide) (by decide)).1
  · exact (chunk_overlap_invariant [⟨1, "a b\n\nc d".toList⟩] "s".toList 2 1
      [⟨"a b".toList, 1, 0, "s".toList⟩, ⟨"b\n\nc d".toList, 1, 1, "s".toList⟩]
      ⟨1, "a b\n\nc d".toList⟩ 0 (by decide) (by decide) (by decide)
      (List.mem_singleton.mpr rfl) (by decide) (by decide)).2

/-- Claim C5: for pages in strictly ascending page order, `chunk_pages`
emits all chunks of an earlier page before any chunk of a later page (the
emitted page numbers are monotone and the output is the per-page
concatenation), and within each page the `chunk_index` values are exactly
`0, 1, 2, ...` (strictly increasing from 0, hence unique); every chunk
carries the page number of the single page it was built from. -/
theorem chunk_pages_ordering (pages : List PageIn) (sp : Str) (maxT ovT : Int)
    (out : List Chunk)
    (hsort : pages.Pairwise (fun a b => a.page < b.page))
    (hok : chunkPages pages sp maxT ovT = .ok out) :
    (out.map (·.page)).Sorted (· ≤ ·) ∧
    out = (pages.map (fun p => chunkOnePage p sp maxT ovT)).flatten ∧
    ∀ p ∈ pages,
      (chunkOnePage p sp maxT ovT).map (·.chunk_index) =
        List.range (chunkOnePage p sp maxT ovT).length ∧
      ∀ c ∈ chunkOnePage p sp maxT ovT, c.page = p.page := by
  have hne : ¬ ovT ≥ maxT := by
    intro hge
    rw [chunkPages, if_pos hge] at hok
    cases hok
  rw [chunkPages_ok pages sp maxT ovT hne] at hok
  have hout : out = (pages.map (fun p => chunkOnePage p sp maxT ovT)).flatten :=
    ((Except.ok.injEq _ _).mp hok).symm
  refine ⟨?_, hout, ?_⟩
  · rw [hout, List.Sorted, List.pairwise_map]
    exact flatten_pages_pairwise pages sp maxT ovT hsort
  · intro p _
    exact ⟨chunkOnePage_indices p sp maxT ovT, chunkOnePage_page p sp maxT ovT⟩

/-- Witness for `chunk_pages_ordering`: two one-paragraph pages. -/
theorem chunk_pages_ordering_witness :
    ([(⟨1, "a".toList⟩ : PageIn), ⟨2, "b".toList⟩].Pairwise
        (fun a b => a.page < b.page)) ∧
    ((([⟨"a".toList, 1, 0, "s".toList⟩, ⟨"b".toList, 2, 0, "s".toList⟩] :
          List Chunk).map (·.page)).Sorted (· ≤ ·) ∧
      ([⟨"a".toList, 1, 0, "s".toList⟩, ⟨"b".toList, 2, 0, "s".toList⟩] :
          List Chunk) =
        (([(⟨1, "a".toList⟩ : PageIn), ⟨2, "b".toList⟩]).map
            (fun p => chunkOnePage p "s".toList 800 120)).flatten ∧
      ∀ p ∈ [(⟨1, "a".toList⟩ : PageIn), ⟨2, "b".toList⟩],
        (chunkOnePage p "s".toList 800 120).map (·.chunk_index) =
          List.range (chunkOnePage p "s".toList 800 120).length ∧
        ∀ c ∈ chunkOnePage p "s".toList 800 120, c.page = p.page) :=
  ⟨by decide,
    chunk_pages_ordering [⟨1, "a".toList⟩, ⟨2, "b".toList⟩] "s".toList 800 120
      [⟨"a".toList, 1, 0, "s".toList⟩, ⟨"b".toList, 2, 0, "s".toList⟩]
      (by decide) (by decide)⟩

/-! ### Claim theorems: retrieval, refusal, outline parsing -/

theorem pyTake_nil (k : Int) : pyTake k ([] : List α) = [] := by
  unfold pyTake
  split <;> simp

theorem pyStrip_eq_nil (s : Str) (h : ∀ c ∈ s, isPyWs c = true) : pyStrip s = [] := by
  rw [pyStrip, pyLStrip, List.dropWhile_eq_nil_iff.mpr h]
  rfl

theorem makeSubqueries_nil_of_ws (question : Str)
    (h : ∀ c ∈ question, isPyWs c = true) : makeSubqueries question = [] := by
  have hq : pyStrip question = [] := pyStrip_eq_nil question h
  unfold makeSubqueries
  rw [hq]
  decide

/-- Claim C1: whenever the merged, deduplicated retrieval pool is empty,
`rag_answer` returns the fixed refusal string with empty evidence and empty
context, and the chat-completion transport is not invoked. -/
theorem rag_answer_refusal (question : Str) (search : Str → Int → List RRes)
    (chat : List Msg → Str) (k : Int)
    (h : dedupPool (mergedPool question search k) = []) :
    ragAnswer question search chat k =
      ⟨refusalText, [], [], false,
        (makeSubqueries question).map (fun sq => (sq, kPerOf k))⟩ := by
  have hr : topKSelect k
      (((makeSubqueries question).map (fun sq => search sq (kPerOf k))).flatten) = [] := by
    have hm : ((makeSubqueries question).map (fun sq => search sq (kPerOf k))).flatten =
        mergedPool question search k := rfl
    rw [topKSelect, hm, h]
    simp [pyTake]
  simp only [ragAnswer]
  rw [if_pos hr]

/-- Witness for `rag_answer_refusal`: a store that returns nothing. -/
theorem rag_answer_refusal_witness :
    dedupPool (mergedPool "q".toList (fun _ _ => []) 6) = [] ∧
    ragAnswer "q".toList (fun _ _ => []) (fun _ => []) 6 =
      ⟨refusalText, [], [], false,
        (makeSubqueries "q".toList).map (fun sq => (sq, kPerOf 6))⟩ :=
  ⟨by decide, rag_answer_refusal "q".toList (fun _ _ => []) (fun _ => []) 6 (by decide)⟩

/-- Claim C10: a question consisting only of whitespace (or empty) yields an
empty sub-query list, so `rag_answer` performs no store search, makes no
language-model call, and returns the fixed refusal with empty evidence. -/
theorem rag_answer_whitespace_question (question : Str)
    (search : Str → Int → List RRes) (chat : List Msg → Str) (k : Int)
    (h : ∀ c ∈ question, isPyWs c = true) :
    makeSubqueries question = [] ∧
    ragAnswer question search chat k = ⟨refusalText, [], [], false, []⟩ := by
  have hsub := makeSubqueries_nil_of_ws question h
  have hr : topKSelect k (([] : List (List RRes)).flatten) = [] := by
    simp [topKSelect, dedupPool, pyTake]
  refine ⟨hsub, ?_⟩
  simp only [ragAnswer, hsub, List.map_nil]
  rw [if_pos hr]

/-- Witness for `rag_answer_whitespace_question` on the one-space question. -/
theorem rag_answer_whitespace_question_witness :
    (∀ c ∈ (" ".toList : Str), isPyWs c = true) ∧
    (makeSubqueries " ".toList = [] ∧
      ragAnswer " ".toList (fun _ _ => []) (fun _ => []) 6 =
        ⟨refusalText, [], [], false, []⟩) :=
  ⟨by decide,
    rag_answer_whitespace_question " ".toList (fun _ _ => []) (fun _ => []) 6 (by decide)⟩

theorem foldl_filter (p : α → Bool) :
    ∀ (l init : List α),
      l.foldl (fun acc x => if p x then acc ++ [x] else acc) init = init ++ l.filter p := by
  intro l
  induction l with
  | nil => intro init; simp
  | cons x xs ih =>
    intro init
    by_cases h : p x <;> simp [h, ih, List.filter_cons]

/-- Claim C7: `parse_toc` returns exactly the stripped, non-blank lines that
start with a digit and have a period within their first four characters, in
input order, falling back to the single synthetic section
`"1. Introduction"`; the result is never empty. -/
theorem parse_toc_spec (t : Str) :
    parseToc t ≠ [] ∧
    parseToc t =
      (if (((pySplitlinesGo t []).map pyStrip).filter (· ≠ [])).filter isSectionLine = []
       then [introSection]
       else (((pySplitlinesGo t []).map pyStrip).filter (· ≠ [])).filter isSectionLine) := by
  have h1 : parseToc t =
      (if (((pySplitlinesGo t []).map pyStrip).filter (· ≠ [])).filter isSectionLine = []
       then [introSection]
       else (((pySplitlinesGo t []).map pyStrip).filter (· ≠ [])).filter isSectionLine) := by
    simp only [parseToc]
    rw [foldl_filter isSectionLine]
    simp
  refine ⟨?_, h1⟩
  rw [h1]
  split
  · decide
  · assumption

/-- Claim C6: searching a local vector store holding zero chunks — a store
never populated, or one just reset — returns the empty result sequence
without error and performs no embedding call. -/
theorem faiss_search_zero_chunks :
    (∀ (embed : Str → FVec) (q : Str) (k : Int),
        faissSearch emptyFaissStore embed q k = .ok ([], 0)) ∧
    (∀ (st : FaissStore) (embed : Str → FVec) (q : Str) (k : Int),
        faissSearch (faissReset st) embed q k = .ok ([], 0)) :=
  ⟨fun _ _ _ => rfl, fun _ _ _ _ => rfl⟩

/-- Claim C3 counterexample: the decomposition of
`"What is X and what is Y?"` is not the three-element list the claim
states — the `[;?]+` split also contributes the question with its trailing
`?` stripped, which survives case-insensitive deduplication. -/
theorem make_subqueries_example_counterexample :
    makeSubqueries "What is X and what is Y?".toList ≠
      ["What is X and what is Y?".toList, "What is X".toList, "what is Y?".toList] := by
  decide

/-- Claim C3 amended: the decomposition of `"What is X and what is Y?"` is
the four-element list that additionally contains
`"What is X and what is Y"` (the `?`-split residue), still capped at 4. -/
theorem make_subqueries_example_amended :
    makeSubqueries "What is X and what is Y?".toList =
      ["What is X and what is Y?".toList, "What is X".toList, "what is Y?".toList,
       "What is X and what is Y".toList] := by
  decide

/-! ### Claim theorems: multi-query merge/deduplication -/

theorem updEntry_mem (r : RRes) : ∀ acc, ∀ z ∈ updEntry r acc, z ∈ acc ∨ z = r := by
  intro acc
  induction acc with
  | nil =>
    intro z hz
    simp only [updEntry, List.mem_singleton] at hz
    exact Or.inr hz
  | cons x xs ih =>
    intro z hz
    by_cases h : rkey x = rkey r
    · simp only [updEntry, if_pos h, List.mem_cons] at hz
      rcases hz with hz | hz
      · split at hz
        · exact Or.inr hz
        · exact Or.inl (hz ▸ List.mem_cons_self x xs)
      · exact Or.inl (List.mem_cons_of_mem x hz)
    · simp only [updEntry, if_neg h, List.mem_cons] at hz
      rcases hz with hz | hz
      · exact Or.inl (hz ▸ List.mem_cons_self x xs)
      · rcases ih z hz with h2 | h2
        · exact Or.inl (List.mem_cons_of_mem x h2)
        · exact Or.inr h2

theorem updEntry_keys (r : RRes) :
    ∀ acc (key : Str × Int × Int),
      (∃ y ∈ updEntry r acc, rkey y = key) ↔
        (∃ y ∈ acc, rkey y = key) ∨ rkey r = key := by
  intro acc
  induction acc with
  | nil =>
    intro key
    simp [updEntry]
  | cons x xs ih =>
    intro key
    by_cases h : rkey x = rkey r
    · have hw : rkey (if r.score > x.score then r else x) = rkey r := by
        split
        · rfl
        · exact h
      simp only [updEntry, if_pos h, List.mem_cons]
      constructor
      · rintro ⟨y, hy | hy, hk⟩
        · subst hy
          rw [hw] at hk
          exact Or.inr hk
        · exact Or.inl ⟨y, Or.inr hy, hk⟩
      · rintro (⟨y, rfl | hy, hk⟩ | hk)
        · exact ⟨_, Or.inl rfl, hw.trans (h.symm.trans hk)⟩
        · exact ⟨y, Or.inr hy, hk⟩
        · exact ⟨_, Or.inl rfl, hw.trans hk⟩
    · simp only [updEntry, if_neg h, List.mem_cons]
      constructor
      · rintro ⟨y, hy | hy, hk⟩
        · exact Or.inl ⟨y, Or.inl hy, hk⟩
        · rcases (ih key).mp ⟨y, hy, hk⟩ with ⟨z, hz, hzk⟩ | hk2
          · exact Or.inl ⟨z, Or.inr hz, hzk⟩
          · exact Or.inr hk2
      · rintro (⟨y, hy | hy, hk⟩ | hk)
        · exact ⟨y, Or.inl hy, hk⟩
        · obtain ⟨z, hz, hzk⟩ := (ih key).mpr (Or.inl ⟨y, hy, hk⟩)
          exact ⟨z, Or.inr hz, hzk⟩
        · obtain ⟨z, hz, hzk⟩ := (ih key).mpr (Or.inr hk)
          exact ⟨z, Or.inr hz, hzk⟩

theorem updEntry_keys_nodup (r : RRes) :
    ∀ acc, (acc.map rkey).Nodup → ((updEntry r acc).map rkey).Nodup := by
  intro acc
  induction acc with
  | nil =>
    intro _
    simp [updEntry]
  | cons x xs ih =>
    intro hnd
    rw [List.map_cons, List.nodup_cons] at hnd
    obtain ⟨hx, hxs⟩ := hnd
    by_cases h : rkey x = rkey r
    · have hw : rkey (if r.score > x.score then r else x) = rkey x := by
        split
        · exact h.symm
        · rfl
      simp only [updEntry, if_pos h, List.map_cons, List.nodup_cons, hw]
      exact ⟨hx, hxs⟩
    · simp only [updEntry, if_neg h, List.map_cons, List.nodup_cons]
      refine ⟨?_, ih hxs⟩
      intro hmem
      obtain ⟨z, hz, hzk⟩ := List.mem_map.mp hmem
      rcases updEntry_mem r xs z hz with h2 | h2
      · exact hx (List.mem_map.mpr ⟨z, h2, hzk⟩)
      · exact h (by rw [← hzk, h2])

theorem updEntry_max (r : RRes) :
    ∀ acc, (acc.map rkey).Nodup →
      ∀ z ∈ updEntry r acc, rkey z = rkey r →
        r.score ≤ z.score ∧ ∀ y ∈ acc, rkey y = rkey r → y.score ≤ z.score := by
  intro acc
  induction acc with
  | nil =>
    intro _ z hz _
    simp only [updEntry, List.mem_singleton] at hz
    subst hz
    exact ⟨le_refl _, by simp⟩
  | cons x xs ih =>
    intro hnd z hz hzk
    rw [List.map_cons, List.nodup_cons] at hnd
    obtain ⟨hx, hxs⟩ := hnd
    by_cases h : rkey x = rkey r
    · simp only [updEntry, if_pos h, List.mem_cons] at hz
      rcases hz with hz | hz
      · constructor
        · subst hz
          split
          · exact le_refl _
          · exact le_of_not_lt (by assumption)
        · intro y hy hyk
          rcases List.mem_cons.mp hy with rfl | hy
          · subst hz
            split
            · exact le_of_lt (by assumption)
            · exact le_refl _
          · exact absurd (List.mem_map.mpr ⟨y, hy, hyk.trans h.symm⟩) hx
      · exact absurd (List.mem_map.mpr ⟨z, hz, hzk.trans h.symm⟩) hx
    · simp only [updEntry, if_neg h, List.mem_cons] at hz
      rcases hz with rfl | hz
      · exact absurd hzk h
      · obtain ⟨h1, h2⟩ := ih hxs z hz hzk
        refine ⟨h1, ?_⟩
        intro y hy hyk
        rcases List.mem_cons.mp hy with rfl | hy
        · exact absurd hyk h
        · exact h2 y hy hyk

theorem dedup_fold_good :
    ∀ (l acc seen : List RRes),
      (acc.map rkey).Nodup →
      (∀ key : Str × Int × Int,
          (∃ y ∈ acc, rkey y = key) ↔ (∃ x ∈ seen, rkey x = key)) →
      (∀ y ∈ acc, ∃ x ∈ seen, rkey x = rkey y ∧ x.score = y.score) →
      (∀ y ∈ acc, ∀ x ∈ seen, rkey x = rkey y → x.score ≤ y.score) →
      (((l.foldl (fun a r => updEntry r a) acc).map rkey).Nodup ∧
       (∀ key : Str × Int × Int,
          (∃ y ∈ l.foldl (fun a r => updEntry r a) acc, rkey y = key) ↔
            (∃ x ∈ seen ++ l, rkey x = key)) ∧
       (∀ y ∈ l.foldl (fun a r => updEntry r a) acc,
          ∃ x ∈ seen ++ l, rkey x = rkey y ∧ x.score = y.score) ∧
       (∀ y ∈ l.foldl (fun a r => updEntry r a) acc,
          ∀ x ∈ seen ++ l, rkey x = rkey y → x.score ≤ y.score)) := by
  intro l
  induction l with
  | nil =>
    intro acc seen h1 h2 h3 h4
    simp only [List.foldl_nil, List.append_nil]
    exact ⟨h1, h2, h3, h4⟩
  | cons r l' ih =>
    intro acc seen h1 h2 h3 h4
    have step := ih (updEntry r acc) (seen ++ [r])
      (updEntry_keys_nodup r acc h1)
      (by
        intro key
        rw [updEntry_keys r acc key]
        constructor
        · rintro (h | h)
          · obtain ⟨x, hx, hxk⟩ := (h2 key).mp h
            exact ⟨x, List.mem_append_left _ hx, hxk⟩
          · exact ⟨r, List.mem_append_right _ (List.mem_singleton.mpr rfl), h⟩
        · rintro ⟨x, hx, hxk⟩
          rcases List.mem_append.mp hx with hx | hx
          · exact Or.inl ((h2 key).mpr ⟨x, hx, hxk⟩)
          · rw [List.mem_singleton.mp hx] at hxk
            exact Or.inr hxk)
      (by
        intro y hy
        rcases updEntry_mem r acc y hy with hmem | rfl
        · obtain ⟨x, hx, hxk, hxs⟩ := h3 y hmem
          exact ⟨x, List.mem_append_left _ hx, hxk, hxs⟩
        · exact ⟨y, List.mem_append_right _ (List.mem_singleton.mpr rfl), rfl, rfl⟩)
      (by
        intro z hz x hx hk
        rcases List.mem_append.mp hx with hx | hx
        · by_cases hzr : rkey z = rkey r
          · obtain ⟨y0, hy0, hy0k⟩ := (h2 (rkey x)).mpr ⟨x, hx, rfl⟩
            have hx_y0 : x.score ≤ y0.score := h4 y0 hy0 x hx hy0k.symm
            have hmax := (updEntry_max r acc h1 z hz hzr).2
            exact le_trans hx_y0 (hmax y0 hy0 (by rw [hy0k, hk, hzr]))
          · rcases updEntry_mem r acc z hz with hmem | rfl
            · exact h4 z hmem x hx hk
            · exact absurd rfl hzr
        · rw [List.mem_singleton.mp hx] at hk ⊢
          exact (updEntry_max r acc h1 z hz hk.symm).1)
    have hassoc : (seen ++ [r]) ++ l' = seen ++ r :: l' := by
      rw [List.append_assoc]
      rfl
    rw [hassoc] at step
    simpa using step

theorem filter_key_count {f : RRes → Str × Int × Int} :
    ∀ l : List RRes, (l.map f).Nodup →
      ∀ key, ((l.filter (fun r => f r = key)).length =
        if ∃ y ∈ l, f y = key then 1 else 0) := by
  intro l
  induction l with
  | nil =>
    intro _ key
    simp
  | cons x xs ih =>
    intro hnd key
    rw [List.map_cons, List.nodup_cons] at hnd
    obtain ⟨hx, hxs⟩ := hnd
    by_cases h : f x = key
    · have hnone : ¬ ∃ y ∈ xs, f y = key := by
        rintro ⟨y, hy, hyk⟩
        exact hx (List.mem_map.mpr ⟨y, hy, hyk.trans h.symm⟩)
      rw [List.filter_cons_of_pos (by simpa using h)]
      rw [List.length_cons, ih hxs key, if_neg hnone,
        if_pos ⟨x, List.mem_cons_self x xs, h⟩]
    · rw [List.filter_cons_of_neg (by simpa using h)]
      rw [ih hxs key]
      by_cases hex : ∃ y ∈ xs, f y = key
      · rw [if_pos hex, if_pos (by
          obtain ⟨y, hy, hyk⟩ := hex
          exact ⟨y, List.mem_cons_of_mem x hy, hyk⟩)]
      · rw [if_neg hex, if_neg (by
          rintro ⟨y, hy, hyk⟩
          rcases List.mem_cons.mp hy with rfl | hy
          · exact h hyk
          · exact hex ⟨y, hy, hyk⟩)]

/-- Claim C2: the merge step of `rag_answer` deduplicates the pooled
sub-query results by `(source_path, page, chunk_index)`, keeping exactly one
entry per key, whose score is the maximum observed and which is one of the
pooled entries; the final selection is the deduplicated pool stably sorted
by score descending, truncated to the top `k`, and is itself
descending-sorted. -/
theorem rag_merge_dedup_topk (pool : List RRes) (k : Int) :
    (∀ key : Str × Int × Int,
        ((dedupPool pool).filter (fun r => rkey r = key)).length =
          if ∃ r ∈ pool, rkey r = key then 1 else 0) ∧
    (∀ r ∈ dedupPool pool,
        (∃ x ∈ pool, rkey x = rkey r ∧ x.score = r.score) ∧
        ∀ x ∈ pool, rkey x = rkey r → x.score ≤ r.score) ∧
    topKSelect k pool = pyTake k (List.insertionSort scoreGe (dedupPool pool)) ∧
    (List.insertionSort scoreGe (dedupPool pool)).Perm (dedupPool pool) ∧
    (topKSelect k pool).Sorted scoreGe := by
  have hgood := dedup_fold_good pool [] []
    (by simp) (by simp) (by simp) (by simp)
  obtain ⟨hnd, hkeys, hprov, hdom⟩ := hgood
  have hpool : ([] : List RRes) ++ pool = pool := List.nil_append pool
  rw [hpool] at hkeys hprov hdom
  refine ⟨?_, ?_, rfl, List.perm_insertionSort scoreGe (dedupPool pool), ?_⟩
  · intro key
    have hkeys2 : (∃ y ∈ dedupPool pool, rkey y = key) ↔ (∃ x ∈ pool, rkey x = key) :=
      hkeys key
    have h := filter_key_count (dedupPool pool) hnd key
    rwa [if_congr hkeys2 rfl rfl] at h
  · intro r hr
    exact ⟨hprov r hr, hdom r hr⟩
  · have hs := List.sorted_insertionSort scoreGe (dedupPool pool)
    rw [topKSelect, pyTake]
    split
    · exact List.Pairwise.sublist (List.take_sublist _ _) hs
    · exact List.Pairwise.sublist (List.take_sublist _ _) hs
